import Mathlib

/-!
Shallow embedding of the AutoSplit heuristic receipt-parsing engine
(`src/backend/ocr_parser.py` and `src/backend/nlp_parser.py`).

Modelling conventions:
* Python strings are `List Char`; Python floats are exact rationals `ℚ`
  (the decimal values the code manipulates), and `round(x, 2)` is rounding
  to the nearest hundredth.
* functions that can swallow exceptions and return `None` return `Option ℚ`;
* `str.lower` is modelled on the ASCII range (receipt text is ASCII);
* Python truthiness of a string/list (`if not s`) is emptiness.
-/

namespace AutoSplit

abbrev Str := List Char

/-- Python whitespace for `str.strip` / `\s`: space, tab, LF, CR, VT, FF. -/
def isPySpace (c : Char) : Bool :=
  c == ' ' || c == '\t' || c == '\n' || c == '\r' || c == '\x0b' || c == '\x0c'

/-- ASCII `str.lower` on one character. -/
def lowerChar (c : Char) : Char :=
  if 'A' ≤ c ∧ c ≤ 'Z' then Char.ofNat (c.toNat + 32) else c

/-- ASCII `str.lower`. -/
def lowerStr (s : Str) : Str := s.map lowerChar

/-- Drop the longest suffix of characters satisfying `p`. -/
def dropRightWhile (p : Char → Bool) (s : Str) : Str :=
  (s.reverse.dropWhile p).reverse

/-- Python `str.strip()`. -/
def pyStrip (s : Str) : Str :=
  dropRightWhile isPySpace (s.dropWhile isPySpace)

/-- Python `str.strip('.')` (strip a given character from both ends). -/
def pyStripChar (c : Char) (s : Str) : Str :=
  dropRightWhile (· == c) (s.dropWhile (· == c))

/-- Split at every character satisfying `p` (Python `str.split(sep)`
semantics: empty fields are kept, the result is never empty). -/
def splitOnP (p : Char → Bool) : Str → List Str
  | [] => [[]]
  | c :: rest =>
    match splitOnP p rest with
    | [] => [[c]]
    | q :: qs => if p c then [] :: q :: qs else (c :: q) :: qs

/-- Python `s.split(sep)` for a one-character separator. -/
def splitOnChar (sep : Char) (s : Str) : List Str :=
  splitOnP (fun c => c == sep) s

/-- Value of a digit string (most significant first), e.g. `"007" ↦ 7`. -/
def natOfDigits (s : Str) : ℕ :=
  s.foldl (fun n c => 10 * n + (c.toNat - '0'.toNat)) 0

/-- Python `int(s)` at the call sites of this code base: succeeds exactly on
nonempty all-digit strings (anything else raises, modelled as `none`). -/
def pyInt (s : Str) : Option ℚ :=
  if s ≠ [] ∧ s.all Char.isDigit then some (natOfDigits s) else none

/-- Python `float(s)` at the call sites of this code base, where `s` consists
of digits and dots: succeeds on `digits`, `digits.digits`, `.digits` and
`digits.` forms, fails (raises, modelled as `none`) otherwise. -/
def pyFloat (s : Str) : Option ℚ :=
  match splitOnChar '.' s with
  | [a] => if a ≠ [] ∧ a.all Char.isDigit then some (natOfDigits a) else none
  | [a, b] =>
    if (a ≠ [] ∨ b ≠ []) ∧ a.all Char.isDigit ∧ b.all Char.isDigit then
      some ((natOfDigits a : ℚ) + (natOfDigits b : ℚ) / (10 : ℚ) ^ b.length)
    else none
  | _ => none

/-- Python `s.rfind(c)`: index of the last occurrence of `c`, `-1` if absent. -/
def rfind (s : Str) (c : Char) : ℤ :=
  match s with
  | [] => -1
  | a :: rest =>
    let r := rfind rest c
    if r ≥ 0 then r + 1 else if a = c then 0 else -1

/-- Python `round(x, 2)`: round to the nearest hundredth (exact decimal ties,
which are virtually unreachable through binary floats, round up). -/
def round2 (q : ℚ) : ℚ := (⌊100 * q + 1 / 2⌋ : ℚ) / 100

/-- The map `c ↦ '.' if c = ',' else c`, i.e. `s.replace(',', '.')` pointwise. -/
def commaToDot (c : Char) : Char := if c = ',' then '.' else c

/-- Integer-token tail of `_clean_and_convert_token` (nlp_parser lines 72-79):
the magnitude heuristic on a dot-free string of length `len` with value
`val`. -/
def intHeuristic_nlp (ctx : List ℚ) (len : ℕ) (val : ℚ) : Option ℚ :=
  if len ≥ 5 then some (val / 100)
  else if ctx ≠ [] ∧ ctx.any (fun x => x.den != 1) ∧ len ≥ 4 then some (val / 100)
  else some val

/-- Integer-token tail of `_normalize_number_token` (ocr_parser lines 123-140):
the same heuristic with the tests in the other order. -/
def intHeuristic_ocr (ctx : List ℚ) (len : ℕ) (val : ℚ) : Option ℚ :=
  if len ≤ 3 then some val
  else if ctx ≠ [] ∧ ctx.any (fun x => x.den != 1) then some (val / 100)
  else if len ≥ 5 then some (val / 100)
  else some val

/-- Parsing tail of `_clean_and_convert_token` after separator
disambiguation (nlp_parser lines 60-79): float parse when a dot remains,
else integer parse plus the magnitude heuristic. -/
def parseTail_nlp (ctx : List ℚ) (s1 : Str) : Option ℚ :=
  if '.' ∈ s1 then pyFloat s1
  else
    match pyInt s1 with
    | none => none
    | some val => intHeuristic_nlp ctx s1.length val

/-- Matches `re.fullmatch(r'\d+(\.\d+)?', s) is not None`. -/
def fullmatchNum (s : Str) : Bool :=
  match splitOnChar '.' s with
  | [a] => !a.isEmpty && a.all Char.isDigit
  | [a, b] => !a.isEmpty && !b.isEmpty && a.all Char.isDigit && b.all Char.isDigit
  | _ => false

/-- Parsing tail of `_normalize_number_token` after separator disambiguation
(ocr_parser lines 102-140): `s.strip('.')`, the full-match sanity check with
character fallback, then float or integer parse plus the magnitude
heuristic. -/
def parseTail_ocr (ctx : List ℚ) (s1 : Str) : Option ℚ :=
  let s2 := pyStripChar '.' s1
  let s3 := if fullmatchNum s2 then s2 else s2.filter (fun c => c.isDigit || c == '.')
  if s3 = [] then none
  else if '.' ∈ s3 then pyFloat s3
  else
    match pyInt s3 with
    | none => none
    | some val => intHeuristic_ocr ctx s3.length val

/-- Separator disambiguation of `_clean_and_convert_token`
(nlp_parser lines 37-58), applied to the already-filtered string. -/
def sepTransform_nlp (s0 : Str) : Str :=
  if '.' ∈ s0 ∧ ',' ∈ s0 then
    if rfind s0 '.' > rfind s0 ',' then s0.filter (fun c => !(c == ','))
    else (s0.filter (fun c => !(c == '.'))).map commaToDot
  else if ',' ∈ s0 ∧ '.' ∉ s0 then
    let parts := splitOnChar ',' s0
    if (parts.getLastD []).length = 2 then s0.map commaToDot
    else if (parts.getLastD []).length = 3 then parts.flatten
    else s0.map commaToDot
  else if '.' ∈ s0 ∧ ',' ∉ s0 then
    let parts := splitOnChar '.' s0
    if (parts.getLastD []).length > 2 then parts.flatten else s0
  else s0

/-- Separator disambiguation of `_normalize_number_token`
(ocr_parser lines 67-100), applied to the already-filtered string. -/
def sepTransform_ocr (s0 : Str) : Str :=
  if '.' ∈ s0 ∧ ',' ∈ s0 then
    let dt := if rfind s0 '.' > rfind s0 ',' then ('.', ',') else (',', '.')
    (s0.filter (fun c => !(c == dt.2))).map (fun c => if c = dt.1 then '.' else c)
  else if ',' ∈ s0 ∧ '.' ∉ s0 then
    let parts := splitOnChar ',' s0
    if (parts.getLastD []).length = 2 then s0.map commaToDot
    else if (parts.getLastD []).length = 3 ∧ parts.length > 1 then parts.flatten
    else s0.map commaToDot
  else if '.' ∈ s0 ∧ ',' ∉ s0 then
    let parts := splitOnChar '.' s0
    if (parts.getLastD []).length ≤ 2 then s0 else parts.flatten
  else s0

/-- Embeds `nlp_parser._clean_and_convert_token(tok, context_nums)` (lines 29-79):
strip to digits/separators, disambiguate `.` vs `,`, then parse; integer
strings of length ≥ 5 (or ≥ 4 with fractional context) are divided by 100. -/
def _clean_and_convert_token (tok : Str) (context_nums : List ℚ) : Option ℚ :=
  let s0 := (pyStrip tok).filter (fun c => c.isDigit || c == '.' || c == ',')
  if s0 = [] then none
  else parseTail_nlp context_nums (sepTransform_nlp s0)

/-- Embeds `ocr_parser._normalize_number_token(tok, context_numbers)` (lines 51-140):
same separator disambiguation, then `s.strip('.')`, a full-match sanity check
with a character-level fallback, and the magnitude heuristic
(length ≤ 3 face value; fractional context, or length ≥ 5, divides by 100). -/
def _normalize_number_token (tok : Str) (context_numbers : List ℚ) : Option ℚ :=
  if tok = [] ∨ ¬ tok.any Char.isDigit then none
  else
    let s0 := (pyStrip tok).filter
      (fun c => c.isDigit || c == ',' || c == '.' || c == '-')
    parseTail_ocr context_numbers (sepTransform_ocr s0)

/-- Character class `[0-9.,]` of the monetary-token regexes. -/
def numClassChar (c : Char) : Bool := c.isDigit || c == '.' || c == ','

/-- Greedy middle of `[0-9][0-9.,]{0,20}[0-9]` anchored after the first digit:
largest `k` not exceeding the bound such that `rest[k]` is a digit (the regex
engine backtracks the `{0,20}` down until the final `[0-9]` matches). -/
def numMidK (rest : Str) : ℕ → Option ℕ
  | 0 =>
    match rest[0]? with
    | some d => if d.isDigit then some 0 else none
    | none => none
  | k + 1 =>
    match rest[k + 1]? with
    | some d => if d.isDigit then some (k + 1) else numMidK rest k
    | none => numMidK rest k

/-- Match of `[0-9][0-9.,]{0,20}[0-9]` anchored at the start of `cs`
(the numeric group of `_AMT_RE` / `_NUM_TOKEN_RE`; the optional currency
prefix never changes the captured group). -/
def numTokenAt (cs : Str) : Option Str :=
  match cs with
  | [] => none
  | c :: rest =>
    if c.isDigit then
      match numMidK rest (min 20 (rest.takeWhile numClassChar).length) with
      | some k => some ((c :: rest).take (k + 2))
      | none => none
    else none

/-- Python `finditer` of the numeric-token group: non-overlapping leftmost matches. -/
def finditerNum : Str → List Str
  | [] => []
  | c :: rest =>
    match numTokenAt (c :: rest) with
    | some tok => tok :: finditerNum (rest.drop (tok.length - 1))
    | none => finditerNum rest
termination_by s => s.length
decreasing_by
  all_goals simp
  all_goals omega

/-- Greedy middle of `_RIGHTMOST_NUM_RE = ([0-9][0-9.,]{0,20}[0-9])\s*$`:
like `numMidK` but the characters after the final digit must all be
whitespace reaching the end of the line. -/
def rightMidK (rest : Str) : ℕ → Option ℕ
  | 0 =>
    match rest[0]? with
    | some d => if d.isDigit && (rest.drop 1).all isPySpace then some 0 else none
    | none => none
  | k + 1 =>
    match rest[k + 1]? with
    | some d =>
      if d.isDigit && (rest.drop (k + 2)).all isPySpace then some (k + 1)
      else rightMidK rest k
    | none => rightMidK rest k

/-- Match of `_RIGHTMOST_NUM_RE` anchored at the start of `cs`. -/
def rightTokenAt (cs : Str) : Option Str :=
  match cs with
  | [] => none
  | c :: rest =>
    if c.isDigit then
      match rightMidK rest (min 20 (rest.takeWhile numClassChar).length) with
      | some k => some ((c :: rest).take (k + 2))
      | none => none
    else none

/-- Embeds `_RIGHTMOST_NUM_RE.search`: leftmost start position whose match reaches
the end of the line through trailing whitespace. -/
def rightmostToken : Str → Option Str
  | [] => none
  | c :: rest =>
    match rightTokenAt (c :: rest) with
    | some t => some t
    | none => rightmostToken rest

/-- Is `pat` a prefix of `s`. -/
def strHasPre : Str → Str → Bool
  | [], _ => true
  | _ :: _, [] => false
  | p :: ps, c :: cs => p == c && strHasPre ps cs

/-- Python substring test `pat in s`. -/
def strHasSub (pat : Str) : Str → Bool
  | [] => pat.isEmpty
  | c :: rest => strHasPre pat (c :: rest) || strHasSub pat rest

/-- Python `s.find(pat)`: index of the first occurrence (`none` for `-1`). -/
def strFind (pat : Str) : Str → Option ℕ
  | [] => if strHasPre pat [] then some 0 else none
  | c :: rest =>
    if strHasPre pat (c :: rest) then some 0
    else (strFind pat rest).map (· + 1)

/-- Embeds `nlp_parser._METADATA_KEYWORDS` (lines 8-13). -/
def METADATA_KEYWORDS_nlp : List Str :=
  [("invoice").data, ("invoice no").data, ("invoice#").data, ("bill no").data,
   ("bill#").data, ("date").data, ("time").data, ("gst").data, ("tax").data,
   ("subtotal").data, ("amount due").data, ("total due").data, ("amount").data,
   ("phone").data, ("tel").data, ("mobile").data, ("order no").data,
   ("qty").data, ("quantity").data, ("id").data, ("paid").data,
   ("change").data, ("receipt").data]

/-- Embeds `ocr_parser._METADATA_KEYWORDS` (lines 22-28). -/
def METADATA_KEYWORDS_ocr : List Str :=
  [("invoice").data, ("invoice no").data, ("invoice#").data, ("bill no").data,
   ("bill#").data, ("date").data, ("time").data, ("gst").data, ("tax").data,
   ("subtotal").data, ("total due").data, ("amount due").data, ("amount").data,
   ("phone").data, ("tel").data, ("mobile").data, ("order no").data,
   ("order#").data, ("qty").data, ("quantity").data, ("id").data,
   ("cash").data, ("card").data, ("paid").data, ("change").data,
   ("receipt").data, ("taxable").data, ("vat").data, ("tin").data,
   ("gstin").data, ("merchant").data, ("address").data, ("email").data]

/-- Matches `re.search(r'\d{8,}', s)`: 8 or more consecutive digits somewhere. -/
def hasDigitRun8 (s : Str) : Bool :=
  (List.range (s.length + 1)).any
    (fun i => 8 ≤ ((s.drop i).takeWhile Char.isDigit).length)

/-- Matches `re.search(r'[/\\\-]{1,}', s)`: contains a slash, backslash or hyphen. -/
def hasDateSep (s : Str) : Bool :=
  s.any (fun c => c == '/' || c == '\\' || c == '-')

/-- Embeds `nlp_parser._is_metadata_line` (lines 18-27). -/
def is_metadata_line_nlp (line : Str) : Bool :=
  METADATA_KEYWORDS_nlp.any (fun k => strHasSub k (lowerStr line)) ||
  (hasDateSep line && line.any Char.isDigit) ||
  hasDigitRun8 line

/-- Embeds `ocr_parser._is_metadata_line` (lines 37-49). -/
def is_metadata_line_ocr (line : Str) : Bool :=
  METADATA_KEYWORDS_ocr.any (fun k => strHasSub k (lowerStr line)) ||
  (hasDateSep line && line.any Char.isDigit) ||
  hasDigitRun8 line

/-- Embeds `[l.strip() for l in raw_text.splitlines() if l.strip()]`. -/
def pyLines (t : Str) : List Str :=
  ((splitOnP (fun c => c == '\n' || c == '\r' || c == '\x0b' || c == '\x0c') t).map
    pyStrip).filter (fun l => !l.isEmpty)

/-- Context numbers of `find_total_amount` (nlp_parser lines 95-105): every
numeric token containing a dot, commas removed, parsed as a float. -/
def context_numbers_nlp (lines : List Str) : List ℚ :=
  ((lines.map finditerNum).flatten).filterMap
    (fun tok =>
      if '.' ∈ tok then pyFloat (tok.filter (fun c => !(c == ','))) else none)

/-- Tail of `total_kw_re` after a keyword: `\s*[:\-]?\s*` then the numeric
group (backtracking collapses to: skip spaces, optionally one `:` or `-`,
skip spaces, match the number there). -/
def kwRestNum (r : Str) : Option Str :=
  let r1 := r.dropWhile isPySpace
  match r1 with
  | [] => none
  | c :: r2 =>
    if c = ':' ∨ c = '-' then numTokenAt (r2.dropWhile isPySpace)
    else numTokenAt r1

/-- One anchored attempt of `total_kw_re` (alternatives tried in the
pattern's order) on an already lowercased line. -/
def kwTryAt (cs : Str) : Option Str :=
  match (if strHasPre ("total").data cs then kwRestNum (cs.drop 5) else none) with
  | some t => some t
  | none =>
    match (if strHasPre ("amount due").data cs then kwRestNum (cs.drop 10) else none) with
    | some t => some t
    | none =>
      match (if strHasPre ("amount payable").data cs then kwRestNum (cs.drop 14) else none) with
      | some t => some t
      | none => if strHasPre ("amount").data cs then kwRestNum (cs.drop 6) else none

/-- Embeds `total_kw_re.search` (leftmost anchored attempt that succeeds),
returning the captured numeric group. -/
def kwSearch : Str → Option Str
  | [] => none
  | c :: rest =>
    match kwTryAt (c :: rest) with
    | some t => some t
    | none => kwSearch rest

/-- Body of phase 1 of `find_total_amount` for one line (lines 109-118):
skip metadata lines not mentioning "total"; otherwise match the keyword
pattern, normalize, and accept a strictly positive value rounded to 2
decimals. -/
def phase1_step (ctx : List ℚ) (ln : Str) : Option ℚ :=
  if is_metadata_line_nlp ln = true ∧ strHasSub ("total").data (lowerStr ln) = false then
    none
  else
    match kwSearch (lowerStr ln) with
    | none => none
    | some tok =>
      match _clean_and_convert_token tok ctx with
      | none => none
      | some t => if t > 0 then some (round2 t) else none

/-- Phase 2 candidate collection (lines 121-128): numeric tokens of the last
20 non-metadata lines, scanned in reverse, normalized, kept when in
`(0, 10_000_000)`. The source stores `(val, ln)` pairs but only ever reads
the value component (the sort key and the returned entries are `[0]`), so
the embedding keeps the values. -/
def phase2_candidates (ctx : List ℚ) (lines : List Str) : List ℚ :=
  (((lines.drop (lines.length - 20)).reverse).map (fun ln =>
    if is_metadata_line_nlp ln = true then []
    else (finditerNum ln).filterMap (fun m =>
      match _clean_and_convert_token m ctx with
      | some v => if 0 < v ∧ v < 10000000 then some v else none
      | none => none))).flatten

/-- Embeds `sorted(candidates, key=value, reverse=True)`. -/
def sortDesc (l : List ℚ) : List ℚ := l.insertionSort (fun a b => b ≤ a)

/-- Phase 2 choice (lines 130-141): largest candidate, falling back to the
second largest when the top exceeds it by more than 50x. -/
def phase2_pick (cands : List ℚ) : Option ℚ :=
  match sortDesc cands with
  | [] => none
  | [a] => some (round2 a)
  | a :: b :: _ => if 0 < b ∧ a / b > 50 then some (round2 b) else some (round2 a)

/-- Embeds `nlp_parser.find_total_amount` (lines 81-141). -/
def find_total_amount (raw_text : Str) : Option ℚ :=
  if raw_text = [] then none
  else
    let lines := pyLines raw_text
    let context_numbers := context_numbers_nlp lines
    match ((lines.drop (lines.length - 12)).reverse).findSome?
        (phase1_step context_numbers) with
    | some v => some v
    | none => phase2_pick (phase2_candidates context_numbers lines)

/-- An extracted item: `{'description', 'price', 'raw_line'}`. -/
structure Item where
  description : Str
  price : ℚ
  raw_line : Str
  deriving DecidableEq, Repr

/-- Context-token cleaning in `extract_lines_with_prices` (lines 186-195).
The currency replacements (`'₹'`, `'Rs'`, `'INR'`) are identity maps here
because the captured group contains only digits, dots and commas. -/
def ocrCtxClean (tok : Str) : Str :=
  let cleaned := tok.filter (fun c => !(c == ' '))
  if ',' ∈ cleaned ∧ '.' ∈ cleaned then
    if rfind cleaned '.' > rfind cleaned ',' then cleaned.filter (fun c => !(c == ','))
    else (cleaned.filter (fun c => !(c == '.'))).map commaToDot
  else cleaned

/-- Context numbers of `extract_lines_with_prices` (lines 181-204). -/
def context_numbers_ocr (lines : List Str) : List ℚ :=
  (((lines.map finditerNum).flatten).map ocrCtxClean).filterMap
    (fun t =>
      if '.' ∈ t then pyFloat (t.filter (fun c => !(c == ','))) else none)

/-- Leftmost start of a terminal `chosen + trailing whitespace` occurrence,
i.e. the match position of `re.escape(chosen) + r'\s*$'`. -/
def tokenEndIdx (ln chosen : Str) : Option ℕ :=
  (List.range (ln.length + 1)).find?
    (fun i => strHasPre chosen (ln.drop i) &&
      ((ln.drop i).drop chosen.length).all isPySpace)

/-- Embeds `re.sub(re.escape(chosen) + r'\s*$', '', ln)`. -/
def removeChosenSuffix (ln chosen : Str) : Str :=
  match tokenEndIdx ln chosen with
  | some i => ln.take i
  | none => ln

/-- Embeds `re.sub(r'^[\s\$\€\₹\£]+', '', desc).strip()`. -/
def stripLeadCurrency (s : Str) : Str :=
  pyStrip (s.dropWhile
    (fun c => isPySpace c || c == '$' || c == '€' || c == '₹' || c == '£'))

/-- Embeds `re.sub(r'^\d+[\.\)\-]\s*', '', desc).strip()`. -/
def stripLeadBullet (s : Str) : Str :=
  let d := s.takeWhile Char.isDigit
  if d.isEmpty then pyStrip s
  else
    match s.drop d.length with
    | c :: r =>
      if c = '.' ∨ c = ')' ∨ c = '-' then pyStrip (r.dropWhile isPySpace)
      else pyStrip s
    | [] => pyStrip s

/-- Token choice of `extract_lines_with_prices` (lines 211-220): the
rightmost line-final numeric token, else the first numeric token anywhere. -/
def chosenToken (ln : Str) : Option Str :=
  match rightmostToken ln with
  | some t => some t
  | none => (finditerNum ln).head?

/-- Per-line body of `extract_lines_with_prices` (lines 206-242). -/
def extract_line (ctx : List ℚ) (ln : Str) : Option Item :=
  if is_metadata_line_ocr ln = true then none
  else
    match chosenToken ln with
    | none => none
    | some chosen =>
      match _normalize_number_token chosen ctx with
      | none => none
      | some price =>
        let desc := stripLeadBullet (stripLeadCurrency
          (pyStrip (removeChosenSuffix ln chosen)))
        if price ≤ 0 ∨ price > 1000000 then none
        else some ⟨if desc.isEmpty then ("(item)").data else desc,
          round2 price, ln⟩

/-- Embeds `ocr_parser.extract_lines_with_prices` (lines 167-243). -/
def extract_lines_with_prices (raw_text : Str) : List Item :=
  if raw_text = [] then []
  else
    let lines := pyLines raw_text
    let context_numbers := context_numbers_ocr lines
    lines.filterMap (extract_line context_numbers)

/-- Python word character `\w` (ASCII): letters, digits, underscore. -/
def isWordChar (c : Char) : Bool := c.isAlphanum || c == '_'

/-- Whether position `i` of `t` holds a word character. -/
def wordAt (t : Str) (i : ℕ) : Bool :=
  match t[i]? with
  | some c => isWordChar c
  | none => false

/-- Whether the position just left of index `i` holds a word character
(the virtual position before the string is a non-word position). -/
def leftIsWord (t : Str) (i : ℕ) : Bool :=
  if i = 0 then false else wordAt t (i - 1)

/-- Occurrence of the literal `pat` at index `i` of `t` with `\b` word
boundaries on both sides (`re.search(r'\b' + re.escape(pat) + r'\b', t)`
anchored at `i`; `pat` is nonempty at every call site). -/
def boundaryMatchAt (pat t : Str) (i : ℕ) : Bool :=
  strHasPre pat (t.drop i) &&
  (leftIsWord t i != wordAt t i) &&
  (wordAt t (i + pat.length - 1) != wordAt t (i + pat.length))

/-- Tests `re.search(r'\b' + re.escape(pat) + r'\b', t) is not None`. -/
def wordSearch (pat t : Str) : Bool :=
  (List.range (t.length + 1)).any (boundaryMatchAt pat t)

/-- The per-name guard of the association loop:
`not (not name or len(name.strip()) < 2)`. -/
def nameOk (name : Str) : Bool :=
  !name.isEmpty && decide (2 ≤ (pyStrip name).length)

/-- Whether one candidate name matches an item (lines 178-190): whole-word
match in the item's lowercased raw line, else in the ±80-character window
around the raw line's first occurrence in the lowercased full text. -/
def nameMatches (lower_text raw_line_low name : Str) : Bool :=
  wordSearch (lowerStr name) raw_line_low ||
  (match strFind raw_line_low lower_text with
   | some idx =>
     wordSearch (lowerStr name)
       ((lower_text.drop (idx - 80)).take ((idx + 80 + raw_line_low.length) - (idx - 80)))
   | none => false)

/-- The `assigned` list collected for one item (lines 175-190): candidate
names passing the length guard that match the item, in candidate order. -/
def item_matched_names (lower_text : Str) (it : Item) (persons : List Str) : List Str :=
  persons.filter
    (fun name => nameOk name && nameMatches lower_text (lowerStr it.raw_line) name)

/-- Embeds `list(dict.fromkeys(assigned))`: deduplicate keeping first occurrences. -/
def firstDedup : List Str → List Str
  | [] => []
  | a :: rest => a :: firstDedup (rest.filter (fun x => !(x == a)))
termination_by l => l.length
decreasing_by
  simp
  exact Nat.lt_succ_of_le (List.length_filter_le _ _)

/-- Embeds `nlp_parser.detect_person_item_relations` (lines 144-194). The candidate
list `persons` is passed as a parameter: it is produced either by the spaCy
NER collaborator or by the capitalized-words fallback, both outside the
matching loop this models (spec §4.5/§6). The returned association list is
the dict `item_index -> deduplicated matched names`, in item order. -/
def detect_person_item_relations (items : List Item) (raw_text : Str)
    (persons : List Str) : List (ℕ × List Str) :=
  if raw_text = [] ∨ items = [] then []
  else
    let lower_text := lowerStr raw_text
    items.enum.filterMap (fun p =>
      let assigned := item_matched_names lower_text p.2 persons
      if assigned.isEmpty then none else some (p.1, firstDedup assigned))

/-! ### Helper lemmas -/

theorem round2_mono {p q : ℚ} (h : p ≤ q) : round2 p ≤ round2 q := by
  unfold round2
  have hf : (⌊100 * p + 1 / 2⌋ : ℤ) ≤ ⌊100 * q + 1 / 2⌋ :=
    Int.floor_le_floor (by linarith)
  have hc : ((⌊100 * p + 1 / 2⌋ : ℤ) : ℚ) ≤ ((⌊100 * q + 1 / 2⌋ : ℤ) : ℚ) := by
    exact_mod_cast hf
  linarith

theorem round2_nonneg {p : ℚ} (h : 0 ≤ p) : 0 ≤ round2 p := by
  unfold round2
  have hf : (0 : ℤ) ≤ ⌊100 * p + 1 / 2⌋ := Int.floor_nonneg.mpr (by linarith)
  have hc : (0 : ℚ) ≤ ((⌊100 * p + 1 / 2⌋ : ℤ) : ℚ) := by exact_mod_cast hf
  linarith

theorem round2_million : round2 ((1000000 : ℚ)) = 1000000 := by
  with_unfolding_all rfl

theorem mem_of_mem_sortDesc {x : ℚ} {l : List ℚ} (h : x ∈ sortDesc l) :
    x ∈ l := (List.mem_insertionSort _).mp h

theorem findSome?_eq_none_of_all {α β : Type} (f : α → Option β) (l : List α)
    (h : ∀ a ∈ l, f a = none) : l.findSome? f = none := by
  induction l with
  | nil => rfl
  | cons a t ih =>
    rw [List.findSome?_cons, h a (by simp)]
    exact ih (fun x hx => h x (by simp [hx]))

theorem extract_item_price (text : Str) (it : Item)
    (h : it ∈ extract_lines_with_prices text) :
    ∃ p, 0 < p ∧ p ≤ 1000000 ∧ it.price = round2 p := by
  unfold extract_lines_with_prices at h
  split at h
  · simp at h
  · rw [List.mem_filterMap] at h
    obtain ⟨ln, -, hline⟩ := h
    unfold extract_line at hline
    split at hline
    · simp at hline
    · split at hline
      · simp at hline
      · split at hline
        · simp at hline
        · rename_i price _
          split at hline
          · simp at hline
          · rename_i hrange
            push_neg at hrange
            obtain ⟨rfl⟩ := Option.some.inj hline
            exact ⟨price, hrange.1, hrange.2, rfl⟩

theorem phase1_step_some (ctx : List ℚ) (ln : Str) (v : ℚ)
    (h : phase1_step ctx ln = some v) : ∃ t, 0 < t ∧ v = round2 t := by
  unfold phase1_step at h
  split at h
  · simp at h
  · split at h
    · simp at h
    · split at h
      · simp at h
      · split at h
        · exact ⟨_, by assumption, (Option.some.inj h).symm⟩
        · simp at h

theorem phase2_candidates_bound (ctx : List ℚ) (lines : List Str) (v : ℚ)
    (h : v ∈ phase2_candidates ctx lines) : 0 < v ∧ v < 10000000 := by
  unfold phase2_candidates at h
  rw [List.mem_flatten] at h
  obtain ⟨l, hl, hvl⟩ := h
  rw [List.mem_map] at hl
  obtain ⟨ln, -, rfl⟩ := hl
  split at hvl
  · simp at hvl
  · rw [List.mem_filterMap] at hvl
    obtain ⟨m, -, hm⟩ := hvl
    split at hm
    · rename_i w _
      split at hm
      · obtain rfl := Option.some.inj hm
        assumption
      · simp at hm
    · simp at hm

theorem phase2_pick_shape (cands : List ℚ) (v : ℚ)
    (hb : ∀ x ∈ cands, 0 < x ∧ x < 10000000)
    (h : phase2_pick cands = some v) :
    ∃ u, 0 < u ∧ u < 10000000 ∧ v = round2 u := by
  unfold phase2_pick at h
  split at h
  · simp at h
  · rename_i a heq
    have ham : a ∈ cands := mem_of_mem_sortDesc (show a ∈ sortDesc cands by rw [heq]; simp)
    exact ⟨a, (hb a ham).1, (hb a ham).2, (Option.some.inj h).symm⟩
  · rename_i a b rest heq
    have ha : a ∈ cands := mem_of_mem_sortDesc (show a ∈ sortDesc cands by rw [heq]; simp)
    have hbm : b ∈ cands := mem_of_mem_sortDesc (show b ∈ sortDesc cands by rw [heq]; simp)
    split at h
    · exact ⟨b, (hb b hbm).1, (hb b hbm).2, (Option.some.inj h).symm⟩
    · exact ⟨a, (hb a ha).1, (hb a ha).2, (Option.some.inj h).symm⟩

/-! ### Claims -/

/-- C1, counterexample: on the text `"Total: 9999999999"` the phase-1 keyword
search returns `99999999.99`, which is not below `10,000,000`; the claimed
invariant `0 < value < 10_000_000` fails for the total resolver. -/
theorem claim_c1_cex :
    find_total_amount (("Total: 9999999999")).data = some ((9999999999 : ℚ) / 100) ∧
    ¬ ((9999999999 : ℚ) / 100 < 10000000) := by
  constructor
  · with_unfolding_all rfl
  · norm_num

/-- C1, amended: every extracted item price lies in `[0, 1_000_000]`
(a subset of `[0, 10_000_000)`); every non-null total is the 2-decimal
rounding of some positive normalized value (with no upper bound in
phase 1); and every phase-2 result is the 2-decimal rounding of a
candidate lying strictly between 0 and 10,000,000. -/
theorem claim_c1_amended :
    (∀ (text : Str) (it : Item), it ∈ extract_lines_with_prices text →
      0 ≤ it.price ∧ it.price ≤ 1000000) ∧
    (∀ (text : Str) (v : ℚ), find_total_amount text = some v →
      ∃ u, 0 < u ∧ v = round2 u) ∧
    (∀ (cands : List ℚ) (v : ℚ), (∀ x ∈ cands, 0 < x ∧ x < 10000000) →
      phase2_pick cands = some v →
      ∃ u, 0 < u ∧ u < 10000000 ∧ v = round2 u) := by
  refine ⟨?_, ?_, ?_⟩
  · intro text it h
    obtain ⟨p, hp0, hp1, hpr⟩ := extract_item_price text it h
    rw [hpr]
    exact ⟨round2_nonneg (le_of_lt hp0), round2_million ▸ round2_mono hp1⟩
  · intro text v h
    unfold find_total_amount at h
    split at h
    · simp at h
    · dsimp only at h
      split at h
      · rename_i v' hp1
        obtain ⟨ln, -, hstep⟩ := List.exists_of_findSome?_eq_some hp1
        obtain rfl := Option.some.inj h
        exact phase1_step_some _ _ _ hstep
      · obtain ⟨u, hu0, -, hur⟩ := phase2_pick_shape _ v
          (fun x hx => phase2_candidates_bound _ _ x hx) h
        exact ⟨u, hu0, hur⟩
  · intro cands v hb h
    exact phase2_pick_shape cands v hb h

/-- C1, witness: a concrete extracted item whose price obeys the amended
bounds. -/
theorem claim_c1_witness :
    0 ≤ (Item.mk (("y")).data ((3.5 : ℚ)) (("y 3.50")).data).price ∧
    (Item.mk (("y")).data ((3.5 : ℚ)) (("y 3.50")).data).price ≤ 1000000 :=
  claim_c1_amended.1 (("y 3.50")).data _ (by with_unfolding_all decide)

/-- C2, counterexample: both normalizers map `"1.234.567"` to `12345.67`,
not to the claimed `1234567.0`. -/
theorem claim_c2_cex :
    _clean_and_convert_token (("1.234.567")).data [] = some ((12345.67 : ℚ)) ∧
    _normalize_number_token (("1.234.567")).data [] = some ((12345.67 : ℚ)) ∧
    ((12345.67 : ℚ)) ≠ 1234567 := by
  refine ⟨?_, ?_, by norm_num⟩
  · with_unfolding_all rfl
  · with_unfolding_all rfl

/-- C2, amended: with empty context both normalizers map `"1.234.567"` to
`12345.67`: all dots are stripped as thousands separators, after which the
seven-digit integer string falls under the length-≥-5 magnitude heuristic
and is divided by 100. -/
theorem claim_c2_amended :
    _clean_and_convert_token (("1.234.567")).data [] = some ((12345.67 : ℚ)) ∧
    _normalize_number_token (("1.234.567")).data [] = some ((12345.67 : ℚ)) := by
  constructor
  · with_unfolding_all rfl
  · with_unfolding_all rfl

/-- C3: with empty context both normalizers return the documented values on
`"1,234.56"`, `"1.234,56"`, `"12,50"`, `"1,234"`, `"250"`, `"18099"` and
`"1809"`, and any context containing a fractional value turns `"1809"`
into `18.09`. -/
theorem claim_c3 :
    (_clean_and_convert_token (("1,234.56")).data [] = some ((1234.56 : ℚ)) ∧
      _normalize_number_token (("1,234.56")).data [] = some ((1234.56 : ℚ))) ∧
    (_clean_and_convert_token (("1.234,56")).data [] = some ((1234.56 : ℚ)) ∧
      _normalize_number_token (("1.234,56")).data [] = some ((1234.56 : ℚ))) ∧
    (_clean_and_convert_token (("12,50")).data [] = some ((12.50 : ℚ)) ∧
      _normalize_number_token (("12,50")).data [] = some ((12.50 : ℚ))) ∧
    (_clean_and_convert_token (("1,234")).data [] = some ((1234 : ℚ)) ∧
      _normalize_number_token (("1,234")).data [] = some ((1234 : ℚ))) ∧
    (_clean_and_convert_token (("250")).data [] = some ((250 : ℚ)) ∧
      _normalize_number_token (("250")).data [] = some ((250 : ℚ))) ∧
    (_clean_and_convert_token (("18099")).data [] = some ((180.99 : ℚ)) ∧
      _normalize_number_token (("18099")).data [] = some ((180.99 : ℚ))) ∧
    (_clean_and_convert_token (("1809")).data [] = some ((1809 : ℚ)) ∧
      _normalize_number_token (("1809")).data [] = some ((1809 : ℚ))) ∧
    (∀ ctx : List ℚ, ctx.any (fun x => x.den != 1) = true →
      _clean_and_convert_token (("1809")).data ctx = some ((18.09 : ℚ)) ∧
      _normalize_number_token (("1809")).data ctx = some ((18.09 : ℚ))) := by
  refine ⟨⟨?_, ?_⟩, ⟨?_, ?_⟩, ⟨?_, ?_⟩, ⟨?_, ?_⟩, ⟨?_, ?_⟩, ⟨?_, ?_⟩, ⟨?_, ?_⟩, ?_⟩
  all_goals try with_unfolding_all rfl
  intro ctx h
  have hne : ctx ≠ [] := by rintro rfl; simp at h
  constructor
  · have h1 : _clean_and_convert_token (("1809")).data ctx =
        intHeuristic_nlp ctx 4 1809 := by with_unfolding_all rfl
    rw [h1]
    unfold intHeuristic_nlp
    rw [if_neg (by omega), if_pos ⟨hne, h, by omega⟩]
    norm_num
  · have h1 : _normalize_number_token (("1809")).data ctx =
        intHeuristic_ocr ctx 4 1809 := by with_unfolding_all rfl
    rw [h1]
    unfold intHeuristic_ocr
    rw [if_neg (by omega), if_pos ⟨hne, h⟩]
    norm_num

/-- C3, witness: the fractional-context clause of `claim_c3` at the concrete
context `[5/2]`. -/
theorem claim_c3_witness :
    _clean_and_convert_token (("1809")).data [(5 : ℚ) / 2] = some ((18.09 : ℚ)) ∧
    _normalize_number_token (("1809")).data [(5 : ℚ) / 2] = some ((18.09 : ℚ)) :=
  claim_c3.2.2.2.2.2.2.2 [(5 : ℚ) / 2] (by with_unfolding_all rfl)

/-- C4: when the descending sort of the phase-2 candidate list starts with
`a, b` and all candidates are positive, the resolver returns the second
candidate (2-decimal rounded) exactly when `a` exceeds `50 * b`, and the
top candidate otherwise. -/
theorem claim_c4 (cands : List ℚ) (a b : ℚ) (rest : List ℚ)
    (hs : sortDesc cands = a :: b :: rest) (hpos : ∀ x ∈ cands, 0 < x) :
    (50 * b < a → phase2_pick cands = some (round2 b)) ∧
    (a ≤ 50 * b → phase2_pick cands = some (round2 a)) := by
  have hbm : b ∈ cands := mem_of_mem_sortDesc (show b ∈ sortDesc cands by rw [hs]; simp)
  have hb : 0 < b := hpos b hbm
  constructor
  · intro h
    unfold phase2_pick
    rw [hs]
    exact if_pos ⟨hb, (lt_div_iff₀ hb).mpr (by linarith)⟩
  · intro h
    unfold phase2_pick
    rw [hs]
    refine if_neg ?_
    rintro ⟨-, hgt⟩
    have := (lt_div_iff₀ hb).mp hgt
    linarith

/-- C4, witness: candidates `[50000, 450]` resolve to `450.0`. -/
theorem claim_c4_witness : phase2_pick [50000, 450] = some ((450 : ℚ)) := by
  have h := (claim_c4 [50000, 450] 50000 450 []
    (by with_unfolding_all rfl)
    (by intro x hx; simp at hx; rcases hx with rfl | rfl <;> norm_num)).1
    (by norm_num)
  rw [h]
  with_unfolding_all rfl

/-- C8: the empty input yields an empty item list from the extractor, a null
total from the resolver, and an empty assignment map from the associator,
with every code path total (no exception is modelled anywhere). -/
theorem claim_c8 :
    extract_lines_with_prices [] = [] ∧
    find_total_amount [] = none ∧
    ∀ (items : List Item) (persons : List Str),
      detect_person_item_relations items [] persons = [] := by
  refine ⟨rfl, rfl, fun items persons => ?_⟩
  unfold detect_person_item_relations
  rw [if_pos (Or.inl rfl)]

/-- C5, counterexample: the text `"Total: 459.00\nTotal: 100.00"` has
`"Total: 459.00"` among its (two) last-12 non-empty lines, yet `resolve`
returns `100.0`: the backward scan hits the later total line first. -/
theorem claim_c5_cex :
    find_total_amount (("Total: 459.00\nTotal: 100.00")).data = some ((100 : ℚ)) ∧
    (("Total: 459.00")).data ∈ pyLines (("Total: 459.00\nTotal: 100.00")).data ∧
    (pyLines (("Total: 459.00\nTotal: 100.00")).data).length ≤ 12 ∧
    ((100 : ℚ)) ≠ 459 := by
  refine ⟨?_, ?_, ?_, by norm_num⟩
  · with_unfolding_all rfl
  · with_unfolding_all decide
  · with_unfolding_all decide

/-- C5, amended: if `"Total: 459.00"` appears among the last 12 non-empty
lines and every line after it yields no phase-1 keyword match with positive
normalized value, then `resolve` returns `459.0` (first match wins scanning
backward from the end; phase 1 precedes phase 2), even when earlier lines
contain larger numeric values. -/
theorem claim_c5_amended (text : Str) (pre post : List Str)
    (hlines : pyLines text = pre ++ (("Total: 459.00")).data :: post)
    (hlen : post.length ≤ 11)
    (hpost : ∀ l ∈ post,
      phase1_step (context_numbers_nlp (pyLines text)) l = none) :
    find_total_amount text = some 459 := by
  have htext : text ≠ [] := by
    intro h
    rw [h, show pyLines ([] : Str) = [] from rfl] at hlines
    exact absurd hlines (by simp)
  unfold find_total_amount
  rw [if_neg htext]
  dsimp only
  set L := pyLines text with hL
  have hlen12 : L.length - 12 ≤ pre.length := by
    rw [hlines]
    simp
    omega
  have hdrop : ∀ n ≤ pre.length, L.drop n =
      pre.drop n ++ (("Total: 459.00")).data :: post := by
    intro n hn
    rw [hlines, List.drop_append_of_le_length hn]
  have hstep : phase1_step (context_numbers_nlp L) (("Total: 459.00")).data =
      some 459 := by
    with_unfolding_all rfl
  have h1 : (post.reverse).findSome? (phase1_step (context_numbers_nlp L)) = none :=
    findSome?_eq_none_of_all _ _ (fun l hl => hpost l (List.mem_reverse.mp hl))
  rw [hdrop _ hlen12, List.reverse_append, List.reverse_cons, List.append_assoc,
    List.findSome?_append, List.findSome?_append, h1]
  rw [List.findSome?_cons, hstep]
  rfl

/-- C5, witness: `claim_c5_amended` on
`"Pizza 900.00\nTotal: 459.00"`, where the earlier line contains the larger
value `900.00`. -/
theorem claim_c5_witness :
    find_total_amount (("Pizza 900.00\nTotal: 459.00")).data = some 459 :=
  claim_c5_amended (("Pizza 900.00\nTotal: 459.00")).data
    [(("Pizza 900.00")).data] []
    (by with_unfolding_all rfl) (by norm_num) (by simp)

/-- C6, counterexample: the line `"x 0,0.004"` normalizes to `0.004`, passes
the `(0, 1_000_000]` filter, and is then emitted with
`round(0.004, 2) = 0.0`: an `Item` with price `0.0`, not strictly positive
as claimed. -/
theorem claim_c6_cex :
    extract_lines_with_prices (("x 0,0.004")).data =
      [Item.mk (("x")).data 0 (("x 0,0.004")).data] ∧
    ¬ (0 < (0 : ℚ)) := by
  refine ⟨?_, by norm_num⟩
  with_unfolding_all rfl

/-- C6, amended: every emitted item price is `round2` of a normalized value
in `(0, 1_000_000]` (so it lies in `[0, 1_000_000]`; the pre-rounding value
is strictly positive but rounding can reach `0.0`), and a line whose chosen
token fails normalization or normalizes outside `(0, 1_000_000]` produces
no item. -/
theorem claim_c6_amended :
    (∀ (text : Str) (it : Item), it ∈ extract_lines_with_prices text →
      (∃ p, 0 < p ∧ p ≤ 1000000 ∧ it.price = round2 p) ∧
      0 ≤ it.price ∧ it.price ≤ 1000000) ∧
    (∀ (ctx : List ℚ) (ln : Str) (chosen : Str),
      chosenToken ln = some chosen →
      (_normalize_number_token chosen ctx = none ∨
        ∃ p, _normalize_number_token chosen ctx = some p ∧
          (p ≤ 0 ∨ p > 1000000)) →
      extract_line ctx ln = none) := by
  constructor
  · intro text it h
    obtain ⟨p, h0, h1, hr⟩ := extract_item_price text it h
    refine ⟨⟨p, h0, h1, hr⟩, ?_, ?_⟩
    · rw [hr]; exact round2_nonneg h0.le
    · rw [hr]; exact round2_million ▸ round2_mono h1
  · intro ctx ln chosen hch hfail
    unfold extract_line
    split
    · rfl
    · rw [hch]
      dsimp only
      rcases hfail with hn | ⟨p, hp, hrange⟩
      · rw [hn]
      · rw [hp]
        dsimp only
        rw [if_pos hrange]

/-- C6, witness: `claim_c6_amended` on the item extracted from `"x 2.50"`,
and on the line `"x 00"`, whose chosen token `"00"` normalizes to `0.0`
(outside `(0, 1_000_000]`) and which therefore produces no item. -/
theorem claim_c6_witness :
    ((∃ p, 0 < p ∧ p ≤ 1000000 ∧
      (Item.mk (("x")).data ((2.5 : ℚ)) (("x 2.50")).data).price = round2 p) ∧
    0 ≤ (Item.mk (("x")).data ((2.5 : ℚ)) (("x 2.50")).data).price ∧
    (Item.mk (("x")).data ((2.5 : ℚ)) (("x 2.50")).data).price ≤ 1000000) ∧
    extract_line [] (("x 00")).data = none :=
  ⟨claim_c6_amended.1 (("x 2.50")).data _ (by with_unfolding_all decide),
   claim_c6_amended.2 [] (("x 00")).data (("00")).data
     (by with_unfolding_all rfl)
     (Or.inr ⟨0, by with_unfolding_all rfl, Or.inl le_rfl⟩)⟩

/-- C7, counterexample: with the single-character candidate `"A"`, which
does match the item's raw line `"A Burger 8.00"` as a whole word, the
associator still records no entry, because candidates whose stripped length
is below 2 are skipped; the claimed "entry iff some candidate matches" is
false. -/
theorem claim_c7_cex :
    detect_person_item_relations
      [Item.mk (("Burger")).data 8 (("A Burger 8.00")).data]
      (("A Burger 8.00")).data [(("A")).data] = [] ∧
    nameMatches (lowerStr (("A Burger 8.00")).data)
      (lowerStr (("A Burger 8.00")).data) (("A")).data = true := by
  constructor
  · with_unfolding_all rfl
  · with_unfolding_all rfl

/-- C7, amended: for every item list, text and candidate list, the associator
records an entry for item `i` iff the text is non-empty and some candidate
name of stripped length at least 2 matches as a whole word (case-insensitively)
within the item's raw line or within the ±80-character window around the raw
line's first occurrence in the text; the recorded entry is the first-seen-order
deduplication of all such matching names. -/
theorem claim_c7_amended (items : List Item) (text : Str) (persons : List Str)
    (i : ℕ) (h : i < items.length) :
    ((∃ ns, (i, ns) ∈ detect_person_item_relations items text persons) ↔
      (text ≠ [] ∧ ∃ name ∈ persons, nameOk name = true ∧
        nameMatches (lowerStr text) (lowerStr (items.get ⟨i, h⟩).raw_line) name = true)) ∧
    (∀ ns, (i, ns) ∈ detect_person_item_relations items text persons →
      ns = firstDedup (item_matched_names (lowerStr text) (items.get ⟨i, h⟩) persons)) := by
  have hitems : items ≠ [] := by
    intro e
    rw [e] at h
    exact absurd h (by simp)
  unfold detect_person_item_relations
  by_cases htext : text = []
  · rw [if_pos (Or.inl htext)]
    constructor
    · simp [htext]
    · intro ns hns
      simp at hns
  · rw [if_neg ((not_or).mpr ⟨htext, hitems⟩)]
    dsimp only
    have hdissect : ∀ ns, (i, ns) ∈ items.enum.filterMap (fun p =>
        if (item_matched_names (lowerStr text) p.2 persons).isEmpty then none
        else some (p.1, firstDedup (item_matched_names (lowerStr text) p.2 persons))) →
        (item_matched_names (lowerStr text) (items.get ⟨i, h⟩) persons) ≠ [] ∧
        ns = firstDedup (item_matched_names (lowerStr text) (items.get ⟨i, h⟩) persons) := by
      intro ns hns
      rw [List.mem_filterMap] at hns
      obtain ⟨⟨j, itj⟩, hmem, hf⟩ := hns
      split at hf
      · simp at hf
      · rename_i hne
        have hp := Option.some.inj hf
        rw [Prod.ext_iff] at hp
        obtain ⟨hj, hns'⟩ := hp
        dsimp only at hj hns' hne
        subst hj
        rw [List.mk_mem_enum_iff_getElem?, List.getElem?_eq_getElem h] at hmem
        have hit : itj = items.get ⟨j, h⟩ := by
          have h2 := (Option.some.inj hmem).symm
          simpa using h2
        rw [hit] at hne hns'
        refine ⟨?_, hns'.symm⟩
        intro e
        rw [e] at hne
        simp at hne
    constructor
    · constructor
      · rintro ⟨ns, hns⟩
        obtain ⟨hne, -⟩ := hdissect ns hns
        refine ⟨htext, ?_⟩
        unfold item_matched_names at hne
        rcases hfil : persons.filter (fun name => nameOk name &&
            nameMatches (lowerStr text) (lowerStr (items.get ⟨i, h⟩).raw_line) name)
          with - | ⟨a, t⟩
        · exact absurd hfil hne
        · have ha : a ∈ persons.filter (fun name => nameOk name &&
              nameMatches (lowerStr text) (lowerStr (items.get ⟨i, h⟩).raw_line) name) := by
            rw [hfil]
            simp
          rw [List.mem_filter] at ha
          obtain ⟨hmem', hpred⟩ := ha
          rw [Bool.and_eq_true] at hpred
          exact ⟨a, hmem', hpred.1, hpred.2⟩
      · rintro ⟨-, name, hmem, hok, hmatch⟩
        have hin : name ∈ item_matched_names (lowerStr text) (items.get ⟨i, h⟩) persons :=
          List.mem_filter.mpr ⟨hmem, by rw [Bool.and_eq_true]; exact ⟨hok, hmatch⟩⟩
        have hne : (item_matched_names (lowerStr text) (items.get ⟨i, h⟩) persons).isEmpty = false := by
          rcases he : item_matched_names (lowerStr text) (items.get ⟨i, h⟩) persons with - | -
          · rw [he] at hin
            simp at hin
          · rfl
        refine ⟨firstDedup (item_matched_names (lowerStr text) (items.get ⟨i, h⟩) persons), ?_⟩
        rw [List.mem_filterMap]
        refine ⟨(i, items.get ⟨i, h⟩), ?_, ?_⟩
        · rw [List.mk_mem_enum_iff_getElem?, List.getElem?_eq_getElem h]
          simp
        · dsimp only
          rw [hne]
          simp
    · intro ns hns
      exact (hdissect ns hns).2

/-- C7, witness: `claim_c7_amended` instantiated on the spec's example —
item raw line `"John Burger 8.00"` with candidate `"John"` yields an entry
for item 0. -/
theorem claim_c7_witness :
    ∃ ns, (0, ns) ∈ detect_person_item_relations
      [Item.mk (("Burger")).data 8 (("John Burger 8.00")).data]
      (("John Burger 8.00")).data [(("John")).data] :=
  (claim_c7_amended
    [Item.mk (("Burger")).data 8 (("John Burger 8.00")).data]
    (("John Burger 8.00")).data [(("John")).data] 0 (by norm_num)).1.mpr
    (by constructor
        · simp
        · exact ⟨(("John")).data, by simp, by with_unfolding_all rfl,
            by with_unfolding_all rfl⟩)

theorem pyFloat_nonneg (s : Str) (q : ℚ) (h : pyFloat s = some q) : 0 ≤ q := by
  unfold pyFloat at h
  split at h
  · split at h
    · have := Option.some.inj h
      rw [← this]
      positivity
    · simp at h
  · split at h
    · have := Option.some.inj h
      rw [← this]
      positivity
    · simp at h
  · simp at h

theorem pyInt_nonneg (s : Str) (q : ℚ) (h : pyInt s = some q) : 0 ≤ q := by
  unfold pyInt at h
  split at h
  · have := Option.some.inj h
    rw [← this]
    positivity
  · simp at h

theorem intHeuristic_nlp_nonneg (ctx : List ℚ) (len : ℕ) (val : ℚ)
    (hv : 0 ≤ val) (q : ℚ) (h : intHeuristic_nlp ctx len val = some q) : 0 ≤ q := by
  unfold intHeuristic_nlp at h
  split at h
  · rw [← Option.some.inj h]; positivity
  · split at h
    · rw [← Option.some.inj h]; positivity
    · rw [← Option.some.inj h]; exact hv

theorem intHeuristic_ocr_nonneg (ctx : List ℚ) (len : ℕ) (val : ℚ)
    (hv : 0 ≤ val) (q : ℚ) (h : intHeuristic_ocr ctx len val = some q) : 0 ≤ q := by
  unfold intHeuristic_ocr at h
  split at h
  · rw [← Option.some.inj h]; exact hv
  · split at h
    · rw [← Option.some.inj h]; positivity
    · split at h
      · rw [← Option.some.inj h]; positivity
      · rw [← Option.some.inj h]; exact hv

theorem parseTail_nlp_nonneg (ctx : List ℚ) (s : Str) (q : ℚ)
    (h : parseTail_nlp ctx s = some q) : 0 ≤ q := by
  unfold parseTail_nlp at h
  split at h
  · exact pyFloat_nonneg _ _ h
  · split at h
    · exact Option.noConfusion h
    · rename_i val hval
      exact intHeuristic_nlp_nonneg _ _ _ (pyInt_nonneg _ _ hval) _ h

theorem parseTail_ocr_nonneg_aux (ctx : List ℚ) (s3 : Str) (q : ℚ)
    (h : (if s3 = [] then none
          else if '.' ∈ s3 then pyFloat s3
          else match pyInt s3 with
            | none => none
            | some val => intHeuristic_ocr ctx s3.length val) = some q) : 0 ≤ q := by
  split at h
  · exact Option.noConfusion h
  · split at h
    · exact pyFloat_nonneg _ _ h
    · split at h
      · exact Option.noConfusion h
      · rename_i val hval
        exact intHeuristic_ocr_nonneg _ _ _ (pyInt_nonneg _ _ hval) _ h

theorem parseTail_ocr_nonneg (ctx : List ℚ) (s : Str) (q : ℚ)
    (h : parseTail_ocr ctx s = some q) : 0 ≤ q := by
  unfold parseTail_ocr at h
  dsimp only at h
  split at h
  · exact parseTail_ocr_nonneg_aux _ _ _ h
  · exact parseTail_ocr_nonneg_aux _ _ _ h

theorem clean_nonneg (tok : Str) (ctx : List ℚ) (q : ℚ)
    (h : _clean_and_convert_token tok ctx = some q) : 0 ≤ q := by
  unfold _clean_and_convert_token at h
  dsimp only at h
  split at h
  · exact Option.noConfusion h
  · exact parseTail_nlp_nonneg _ _ _ h

theorem normalize_nonneg (tok : Str) (ctx : List ℚ) (q : ℚ)
    (h : _normalize_number_token tok ctx = some q) : 0 ≤ q := by
  unfold _normalize_number_token at h
  dsimp only at h
  split at h
  · exact Option.noConfusion h
  · exact parseTail_ocr_nonneg _ _ _ h

/-- C9: both normalizers are total functions of the token and context: on any
input they return either null or a (non-negative) monetary value; every
failure path (unparsable string at any step) yields null rather than an
exception, which the embedding realizes as these total `Option`-valued
functions. -/
theorem claim_c9 (tok : Str) (ctx : List ℚ) :
    (_clean_and_convert_token tok ctx = none ∨
      ∃ q, _clean_and_convert_token tok ctx = some q ∧ 0 ≤ q) ∧
    (_normalize_number_token tok ctx = none ∨
      ∃ q, _normalize_number_token tok ctx = some q ∧ 0 ≤ q) := by
  constructor
  · rcases h : _clean_and_convert_token tok ctx with - | q
    · exact Or.inl rfl
    · exact Or.inr ⟨q, rfl, clean_nonneg tok ctx q h⟩
  · rcases h : _normalize_number_token tok ctx with - | q
    · exact Or.inl rfl
    · exact Or.inr ⟨q, rfl, normalize_nonneg tok ctx q h⟩

/-! ### Lemmas towards the equivalence of the two normalizers (C10) -/

theorem dropWhile_eq_self_head {p : Char → Bool} {l : Str}
    (h : ∀ a, l.head? = some a → p a = false) : l.dropWhile p = l := by
  cases l with
  | nil => rfl
  | cons a t =>
    rw [List.dropWhile_cons, h a rfl]
    simp

theorem pyStripChar_eq_self {c : Char} {l : Str}
    (hh : ∀ a, l.head? = some a → (a == c) = false)
    (hl : ∀ a, l.getLast? = some a → (a == c) = false) :
    pyStripChar c l = l := by
  unfold pyStripChar dropRightWhile
  rw [dropWhile_eq_self_head hh]
  rw [dropWhile_eq_self_head (fun a ha => hl a (by rw [← List.head?_reverse]; exact ha))]
  exact List.reverse_reverse l

theorem mem_of_head?_eq {l : Str} {a : Char} (h : l.head? = some a) : a ∈ l := by
  cases l with
  | nil => exact Option.noConfusion h
  | cons b t =>
    obtain rfl := Option.some.inj h
    exact List.mem_cons_self _ _

theorem mem_of_getLast?_eq {l : Str} {a : Char} (h : l.getLast? = some a) : a ∈ l := by
  rw [List.getLast?_eq_head?_reverse] at h
  exact List.mem_reverse.mp (mem_of_head?_eq h)

theorem pyStrip_eq_self {l : Str} (h : ∀ a ∈ l, isPySpace a = false) :
    pyStrip l = l := by
  unfold pyStrip dropRightWhile
  have h1 : l.dropWhile isPySpace = l :=
    dropWhile_eq_self_head (fun a ha => h a (mem_of_head?_eq ha))
  rw [h1]
  have h2 : l.reverse.dropWhile isPySpace = l.reverse :=
    dropWhile_eq_self_head (fun a ha => h a (by
      rw [List.head?_reverse] at ha
      exact mem_of_getLast?_eq ha))
  rw [h2, List.reverse_reverse]

theorem head?_filter_of {p : Char → Bool} {l : Str} {a : Char}
    (h : l.head? = some a) (hp : p a = true) : (l.filter p).head? = some a := by
  cases l with
  | nil => exact Option.noConfusion h
  | cons b t =>
    obtain rfl := Option.some.inj h
    rw [List.filter_cons, if_pos hp]
    rfl

theorem getLast?_filter_of {p : Char → Bool} {l : Str} {a : Char}
    (h : l.getLast? = some a) (hp : p a = true) : (l.filter p).getLast? = some a := by
  rw [List.getLast?_eq_head?_reverse] at h ⊢
  rw [← List.filter_reverse]
  exact head?_filter_of h hp

theorem splitOnP_ne_nil (p : Char → Bool) (s : Str) : splitOnP p s ≠ [] := by
  cases s with
  | nil => simp [splitOnP]
  | cons c rest =>
    unfold splitOnP
    rcases h : splitOnP p rest with - | ⟨q, qs⟩
    · simp
    · dsimp only
      split <;> simp

theorem flatten_splitOnP (p : Char → Bool) (s : Str) :
    (splitOnP p s).flatten = s.filter (fun c => !(p c)) := by
  induction s with
  | nil => rfl
  | cons c rest ih =>
    unfold splitOnP
    rcases h : splitOnP p rest with - | ⟨q, qs⟩
    · exact absurd h (splitOnP_ne_nil p rest)
    · rw [h] at ih
      dsimp only
      by_cases hp : p c = true
      · rw [if_pos hp]
        simpa [List.filter_cons, hp] using ih
      · rw [if_neg hp]
        rw [Bool.not_eq_true] at hp
        simp only [List.flatten, List.filter_cons, hp]
        simpa using ih

theorem flatten_splitOnChar (sep : Char) (s : Str) :
    (splitOnChar sep s).flatten = s.filter (fun c => !(c == sep)) :=
  flatten_splitOnP _ s

theorem splitOnP_length_ge_two {p : Char → Bool} {s : Str}
    (h : ∃ c ∈ s, p c = true) : 2 ≤ (splitOnP p s).length := by
  induction s with
  | nil => simp at h
  | cons c rest ih =>
    unfold splitOnP
    rcases hr : splitOnP p rest with - | ⟨q, qs⟩
    · exact absurd hr (splitOnP_ne_nil p rest)
    · obtain ⟨d, hd, hpd⟩ := h
      dsimp only
      by_cases hp : p c = true
      · rw [if_pos hp]
        simp
      · rw [if_neg hp]
        rcases List.mem_cons.mp hd with rfl | hd'
        · exact absurd hpd hp
        · have := ih ⟨d, hd', hpd⟩
          rw [hr] at this
          simpa using this

theorem intHeuristic_eq (ctx : List ℚ) (len : ℕ) (val : ℚ) :
    intHeuristic_nlp ctx len val = intHeuristic_ocr ctx len val := by
  unfold intHeuristic_nlp intHeuristic_ocr
  by_cases h5 : len ≥ 5
  · rw [if_pos h5, if_neg (by omega)]
    by_cases hc : ctx ≠ [] ∧ ctx.any (fun x => x.den != 1) = true
    · rw [if_pos hc]
    · rw [if_neg hc, if_pos h5]
  · rw [if_neg h5]
    by_cases h3 : len ≤ 3
    · rw [if_pos h3, if_neg (fun hx => by omega)]
    · rw [if_neg h3]
      by_cases hc : ctx ≠ [] ∧ ctx.any (fun x => x.den != 1) = true
      · rw [if_pos ⟨hc.1, hc.2, by omega⟩, if_pos hc]
      · rw [if_neg (fun hx => hc ⟨hx.1, hx.2.1⟩), if_neg hc, if_neg h5]

/-- The post-transform strings handled by both parsing tails: digits and
dots only, with digits at both ends (when non-empty). -/
def DotShape (s : Str) : Prop :=
  (∀ c ∈ s, c.isDigit = true ∨ c = '.') ∧
  (∀ a, s.head? = some a → a.isDigit = true) ∧
  (∀ a, s.getLast? = some a → a.isDigit = true)

theorem isDigit_ne_beq {a c : Char} (ha : a.isDigit = true)
    (hc : c.isDigit = false) : (a == c) = false := by
  rcases h : a == c
  · rfl
  · rw [beq_iff_eq] at h
    rw [h, hc] at ha
    exact Bool.noConfusion ha

theorem parseTail_eq (ctx : List ℚ) (s : Str) (h : DotShape s) :
    parseTail_nlp ctx s = parseTail_ocr ctx s := by
  obtain ⟨hchars, hh, hl⟩ := h
  by_cases hs : s = []
  · subst hs
    rfl
  · unfold parseTail_nlp parseTail_ocr
    dsimp only
    have h2 : pyStripChar '.' s = s :=
      pyStripChar_eq_self
        (fun a ha => isDigit_ne_beq (hh a ha) (by decide))
        (fun a ha => isDigit_ne_beq (hl a ha) (by decide))
    rw [h2]
    have h3 : (if fullmatchNum s then s
        else s.filter (fun c => c.isDigit || c == '.')) = s := by
      split
      · rfl
      · refine List.filter_eq_self.mpr (fun a ha => ?_)
        rcases hchars a ha with hd | rfl
        · simp [hd]
        · simp
    rw [h3, if_neg hs]
    by_cases hdot : '.' ∈ s
    · rw [if_pos hdot, if_pos hdot]
    · rw [if_neg hdot, if_neg hdot]
      rcases hpi : pyInt s with - | val
      · rfl
      · exact intHeuristic_eq ctx s.length val

theorem heads_filter {p : Char → Bool} {s : Str}
    (hp : ∀ c, c.isDigit = true → p c = true)
    (hh : ∀ a, s.head? = some a → a.isDigit = true) :
    ∀ a, (s.filter p).head? = some a → a.isDigit = true := by
  intro a ha
  cases s with
  | nil => exact Option.noConfusion ha
  | cons c t =>
    have hc : c.isDigit = true := hh c rfl
    have he : ((c :: t).filter p).head? = some c := head?_filter_of rfl (hp c hc)
    rw [he] at ha
    obtain rfl := Option.some.inj ha
    exact hc

theorem lasts_filter {p : Char → Bool} {s : Str}
    (hp : ∀ c, c.isDigit = true → p c = true)
    (hl : ∀ a, s.getLast? = some a → a.isDigit = true) :
    ∀ a, (s.filter p).getLast? = some a → a.isDigit = true := by
  intro a ha
  rcases hgl : s.getLast? with - | d
  · rw [List.getLast?_eq_none_iff] at hgl
    subst hgl
    exact Option.noConfusion ha
  · have hd : d.isDigit = true := hl d hgl
    have he : (s.filter p).getLast? = some d := getLast?_filter_of hgl (hp d hd)
    rw [he] at ha
    obtain rfl := Option.some.inj ha
    exact hd

theorem commaToDot_digit {c : Char} (h : c.isDigit = true) : commaToDot c = c := by
  unfold commaToDot
  rw [if_neg]
  intro e
  rw [e] at h
  exact Bool.noConfusion h

theorem heads_map_commaToDot {s : Str}
    (hh : ∀ a, s.head? = some a → a.isDigit = true) :
    ∀ a, (s.map commaToDot).head? = some a → a.isDigit = true := by
  intro a ha
  rw [List.head?_map] at ha
  rcases hs : s.head? with - | c
  · rw [hs] at ha
    exact Option.noConfusion ha
  · rw [hs] at ha
    have hc := hh c hs
    obtain rfl := Option.some.inj ha
    rw [commaToDot_digit hc]
    exact hc

theorem lasts_map_commaToDot {s : Str}
    (hl : ∀ a, s.getLast? = some a → a.isDigit = true) :
    ∀ a, (s.map commaToDot).getLast? = some a → a.isDigit = true := by
  intro a ha
  rw [List.getLast?_map] at ha
  rcases hs : s.getLast? with - | c
  · rw [hs] at ha
    exact Option.noConfusion ha
  · rw [hs] at ha
    have hc := hl c hs
    obtain rfl := Option.some.inj ha
    rw [commaToDot_digit hc]
    exact hc

theorem digit_keeps_ne_comma {c : Char} (h : c.isDigit = true) :
    (!(c == ',')) = true := by
  rw [isDigit_ne_beq h (by decide)]
  rfl

theorem digit_keeps_ne_dot {c : Char} (h : c.isDigit = true) :
    (!(c == '.')) = true := by
  rw [isDigit_ne_beq h (by decide)]
  rfl

theorem mem_filter_ne {s : Str} {d c : Char}
    (h : c ∈ s.filter (fun x => !(x == d))) : c ∈ s ∧ c ≠ d := by
  rw [List.mem_filter] at h
  refine ⟨h.1, ?_⟩
  have := h.2
  simpa using this

/-- Over a token of digits, dots and commas with digits at both ends, the
separator transform yields a digits-and-dots string with digits at both
ends. -/
theorem dotShape_sepTransform_nlp (s0 : Str)
    (hchars : ∀ c ∈ s0, c.isDigit = true ∨ c = '.' ∨ c = ',')
    (hh : ∀ a, s0.head? = some a → a.isDigit = true)
    (hl : ∀ a, s0.getLast? = some a → a.isDigit = true) :
    DotShape (sepTransform_nlp s0) := by
  unfold sepTransform_nlp
  by_cases hb : '.' ∈ s0 ∧ ',' ∈ s0
  · rw [if_pos hb]
    by_cases hr : rfind s0 '.' > rfind s0 ','
    · rw [if_pos hr]
      refine ⟨?_, heads_filter (fun c => digit_keeps_ne_comma) hh,
        lasts_filter (fun c => digit_keeps_ne_comma) hl⟩
      intro c hc
      obtain ⟨hcm, hcne⟩ := mem_filter_ne hc
      rcases hchars c hcm with h | h | h
      · exact Or.inl h
      · exact Or.inr h
      · exact absurd h hcne
    · rw [if_neg hr]
      refine ⟨?_, heads_map_commaToDot (heads_filter (fun c => digit_keeps_ne_dot) hh),
        lasts_map_commaToDot (lasts_filter (fun c => digit_keeps_ne_dot) hl)⟩
      intro c hc
      rw [List.mem_map] at hc
      obtain ⟨b, hbm, rfl⟩ := hc
      obtain ⟨hbs, hbne⟩ := mem_filter_ne hbm
      rcases hchars b hbs with h | h | h
      · rw [commaToDot_digit h]
        exact Or.inl h
      · exact absurd h hbne
      · rw [h]
        exact Or.inr rfl
  · rw [if_neg hb]
    by_cases hc : ',' ∈ s0 ∧ '.' ∉ s0
    · rw [if_pos hc]
      dsimp only
      have hmap : DotShape (s0.map commaToDot) := by
        refine ⟨?_, heads_map_commaToDot hh, lasts_map_commaToDot hl⟩
        intro c hcm
        rw [List.mem_map] at hcm
        obtain ⟨b, hbm, rfl⟩ := hcm
        rcases hchars b hbm with h | h | h
        · rw [commaToDot_digit h]
          exact Or.inl h
        · exact absurd (h ▸ hbm) hc.2
        · rw [h]
          exact Or.inr rfl
      have hflat : DotShape (splitOnChar ',' s0).flatten := by
        rw [flatten_splitOnChar]
        refine ⟨?_, heads_filter (fun c => digit_keeps_ne_comma) hh,
          lasts_filter (fun c => digit_keeps_ne_comma) hl⟩
        intro c hcm
        obtain ⟨hcs, hcne⟩ := mem_filter_ne hcm
        rcases hchars c hcs with h | h | h
        · exact Or.inl h
        · exact Or.inr h
        · exact absurd h hcne
      split
      · exact hmap
      · split
        · exact hflat
        · exact hmap
    · rw [if_neg hc]
      by_cases hd : '.' ∈ s0 ∧ ',' ∉ s0
      · rw [if_pos hd]
        dsimp only
        have hkeep : DotShape s0 := by
          refine ⟨?_, hh, hl⟩
          intro c hcm
          rcases hchars c hcm with h | h | h
          · exact Or.inl h
          · exact Or.inr h
          · exact absurd (h ▸ hcm) hd.2
        have hflat : DotShape (splitOnChar '.' s0).flatten := by
          rw [flatten_splitOnChar]
          refine ⟨?_, heads_filter (fun c => digit_keeps_ne_dot) hh,
            lasts_filter (fun c => digit_keeps_ne_dot) hl⟩
          intro c hcm
          obtain ⟨hcs, hcne⟩ := mem_filter_ne hcm
          rcases hchars c hcs with h | h | h
          · exact Or.inl h
          · exact absurd h hcne
          · exact absurd (h ▸ hcs) hd.2
        split
        · exact hflat
        · exact hkeep
      · rw [if_neg hd]
        refine ⟨?_, hh, hl⟩
        intro c hcm
        rcases hchars c hcm with h | h | h
        · exact Or.inl h
        · exfalso
          by_cases hcc : ',' ∈ s0
          · exact hb ⟨h ▸ hcm, hcc⟩
          · exact hd ⟨h ▸ hcm, hcc⟩
        · exfalso
          by_cases hdd : '.' ∈ s0
          · exact hb ⟨hdd, h ▸ hcm⟩
          · exact hc ⟨h ▸ hcm, hdd⟩

/-- On any input the two separator-disambiguation blocks agree: their only
textual differences (`dec`/`thou` variables, the `len(parts) > 1` guard, the
mirrored dot-branch test) are semantically inert. -/
theorem sepTransform_eq (s0 : Str) :
    sepTransform_nlp s0 = sepTransform_ocr s0 := by
  unfold sepTransform_nlp sepTransform_ocr
  by_cases hb : '.' ∈ s0 ∧ ',' ∈ s0
  · rw [if_pos hb, if_pos hb]
    dsimp only
    by_cases hr : rfind s0 '.' > rfind s0 ','
    · rw [if_pos hr, if_pos hr]
      dsimp only
      have hid : (fun c : Char => if c = '.' then '.' else c) = id :=
        funext fun c => by by_cases h : c = '.' <;> simp [h]
      rw [hid, List.map_id]
    · rw [if_neg hr, if_neg hr]
      rfl
  · rw [if_neg hb, if_neg hb]
    by_cases hc : ',' ∈ s0 ∧ '.' ∉ s0
    · rw [if_pos hc, if_pos hc]
      dsimp only
      have hlen : (splitOnChar ',' s0).length > 1 :=
        splitOnP_length_ge_two ⟨',', hc.1, by simp⟩
      by_cases h2 : ((splitOnChar ',' s0).getLastD []).length = 2
      · rw [if_pos h2, if_pos h2]
      · rw [if_neg h2, if_neg h2]
        by_cases h3 : ((splitOnChar ',' s0).getLastD []).length = 3
        · rw [if_pos h3, if_pos ⟨h3, hlen⟩]
        · rw [if_neg h3, if_neg (fun hx => h3 hx.1)]
    · rw [if_neg hc, if_neg hc]
      by_cases hd : '.' ∈ s0 ∧ ',' ∉ s0
      · rw [if_pos hd, if_pos hd]
        dsimp only
        by_cases h2 : ((splitOnChar '.' s0).getLastD []).length ≤ 2
        · rw [if_neg (by omega), if_pos h2]
        · rw [if_pos (by omega), if_neg h2]
      · rw [if_neg hd, if_neg hd]

/-- The token shape matched by the amount regexes: non-empty, only digits,
dots and commas, and a digit at each end. -/
def tokenShape (tok : Str) : Bool :=
  match tok with
  | [] => false
  | c :: _ =>
    c.isDigit && (tok.getLastD 'x').isDigit &&
      tok.all (fun x => x.isDigit || x == '.' || x == ',')

theorem tokenShape_spec (tok : Str) (h : tokenShape tok = true) :
    tok ≠ [] ∧ (∀ a, tok.head? = some a → a.isDigit = true) ∧
    (∀ a, tok.getLast? = some a → a.isDigit = true) ∧
    (∀ c ∈ tok, c.isDigit = true ∨ c = '.' ∨ c = ',') := by
  cases tok with
  | nil => exact Bool.noConfusion h
  | cons c t =>
    unfold tokenShape at h
    rw [Bool.and_eq_true, Bool.and_eq_true] at h
    obtain ⟨⟨hc, hlast⟩, hall⟩ := h
    refine ⟨by simp, ?_, ?_, ?_⟩
    · intro a ha
      obtain rfl := Option.some.inj ha
      exact hc
    · intro a ha
      have he : (c :: t).getLastD 'x' = a := by
        rw [List.getLastD_eq_getLast?, ha]
        rfl
      rw [← he]
      exact hlast
    · intro x hx
      have := List.all_eq_true.mp hall x hx
      rw [Bool.or_eq_true, Bool.or_eq_true] at this
      rcases this with (hd | hd) | hd
      · exact Or.inl hd
      · exact Or.inr (Or.inl (by simpa using hd))
      · exact Or.inr (Or.inr (by simpa using hd))

theorem digit_not_space {c : Char} (h : c.isDigit = true) :
    isPySpace c = false := by
  rcases hs : isPySpace c
  · rfl
  · unfold isPySpace at hs
    simp only [Bool.or_eq_true, beq_iff_eq] at hs
    rcases hs with ((((h1 | h1) | h1) | h1) | h1) | h1 <;>
      · rw [h1] at h
        exact Bool.noConfusion h

/-- C10: the two normalizer implementations agree on every token of the
shape matched by the amount regexes (digits, dots and commas, starting and
ending with a digit) and every context. -/
theorem claim_c10 (tok : Str) (ctx : List ℚ) (hshape : tokenShape tok = true) :
    _clean_and_convert_token tok ctx = _normalize_number_token tok ctx := by
  obtain ⟨hne, hh, hl, hchars⟩ := tokenShape_spec tok hshape
  have hnospace : ∀ a ∈ tok, isPySpace a = false := by
    intro a ha
    rcases hchars a ha with h | h | h
    · exact digit_not_space h
    · rw [h]; rfl
    · rw [h]; rfl
  have hstrip : pyStrip tok = tok := pyStrip_eq_self hnospace
  have e0a : (pyStrip tok).filter (fun c => c.isDigit || c == '.' || c == ',') = tok := by
    rw [hstrip]
    refine List.filter_eq_self.mpr (fun a ha => ?_)
    rcases hchars a ha with h | h | h
    · simp [h]
    · rw [h]; rfl
    · rw [h]; rfl
  have e0b : (pyStrip tok).filter
      (fun c => c.isDigit || c == ',' || c == '.' || c == '-') = tok := by
    rw [hstrip]
    refine List.filter_eq_self.mpr (fun a ha => ?_)
    rcases hchars a ha with h | h | h
    · simp [h]
    · rw [h]; rfl
    · rw [h]; rfl
  have hany : tok.any Char.isDigit = true := by
    cases tok with
    | nil => exact absurd rfl hne
    | cons c t =>
      rw [List.any_cons, hh c rfl]
      rfl
  have eL : _clean_and_convert_token tok ctx =
      parseTail_nlp ctx (sepTransform_nlp tok) := by
    unfold _clean_and_convert_token
    dsimp only
    rw [e0a, if_neg hne]
  have eR : _normalize_number_token tok ctx =
      parseTail_ocr ctx (sepTransform_ocr tok) := by
    unfold _normalize_number_token
    dsimp only
    rw [e0b, if_neg ((not_or).mpr ⟨hne, by simp [hany]⟩)]
  have hshape2 := dotShape_sepTransform_nlp tok hchars hh hl
  rw [sepTransform_eq tok] at hshape2
  rw [eL, eR, sepTransform_eq tok]
  exact parseTail_eq ctx _ hshape2

/-- C10, witness: both normalizers on the two-separator token `"1.234,56"`
with empty context. -/
theorem claim_c10_witness :
    _clean_and_convert_token (("1.234,56")).data [] =
      _normalize_number_token (("1.234,56")).data [] :=
  claim_c10 (("1.234,56")).data [] (by with_unfolding_all rfl)

end AutoSplit
